import Mathlib

/-!
Verification model of the cstring extension module (src/src/cstring.c).

A value of the C type `struct cstring` is modelled as a `CString`: the
`length`-bounded byte content `bytes` (excluding the trailing zero
terminator the C code always keeps at `value[Py_SIZE - 1]`) together with
the `hash` cache field.  Bytes are natural numbers; the buffer the C code
works on is `bytes ++ [0]`.  Several algorithms in the source are
terminator bounded (they walk the buffer with C string routines such as
`strstr`, `strchr`, `strlen`), so the model provides `cstr`, the view of a
byte list up to its first zero byte, and `segAt`, the C string that starts
at a given buffer offset.  Reads that the C code performs past the end of
the allocated buffer are undefined behaviour; where an algorithm can reach
such a read the model either returns `none` (the strip scans) or treats
the out of range byte as zero (the split skip step), as noted at each
definition.
-/

namespace CStringSpec

/-- View of a byte buffer as a C string: the bytes before the first zero
byte.  This is what terminator bounded routines in the source read. -/
def cstr (v : List Nat) : List Nat := v.takeWhile (fun c => c != 0)

/-- C string that starts at offset `p` of the buffer holding `v` followed
by its zero terminator: bytes from `p` up to the next zero byte. -/
def segAt (v : List Nat) (p : Nat) : List Nat :=
  (v.drop p).takeWhile (fun c => c != 0)

/-- Offset of the first occurrence of `f` in `s`, as computed by `strstr`:
the least `j` with `f` a prefix of `s.drop j`, `none` when there is no
occurrence.  An empty needle matches at offset 0, as in C. -/
def strstrIdx (s f : List Nat) : Option Nat :=
  if f.isPrefixOf s then some 0
  else
    match s with
    | [] => none
    | _ :: t => (strstrIdx t f).map (fun j => j + 1)

/-- Backward scan of `_strrstr` (src/src/cstring.c lines 14-21): the
pointer starts at `s + strlen s - 1` and the loop runs while `p > s`, so
only offsets `n, n-1, ..., 1` are tested; offset 0 is never tested.  The
`memcmp` test is prefix comparison (the needle is zero free, so a
comparison that would run into the terminator cannot succeed). -/
def rstrIdxGo (s f : List Nat) : Nat → Option Nat
  | 0 => none
  | n + 1 => if f.isPrefixOf (s.drop (n + 1)) then some (n + 1) else rstrIdxGo s f n

/-- Offset of the occurrence `_strrstr` reports: the greatest offset in
`[1, strlen s - 1]` where the needle matches, `none` otherwise. -/
def rstrIdx (s f : List Nat) : Option Nat :=
  rstrIdxGo s f (s.length - 1)

/-- Clamp of `_fix_index` (lines 306-315): negative indices count from the
end, then the result is clamped into `[0, len]`. -/
def fix_index (i : Int) (len : Nat) : Nat :=
  let r := if i < 0 then i + len else i
  if r < 0 then 0 else if (len : Int) < r then len else r.toNat

/-- Model of `struct cstring`: the length bounded byte content and the
`hash` cache field (`-1` is the "not yet computed" sentinel). -/
structure CString where
  bytes : List Nat
  cachedHash : Int
  deriving DecidableEq, Repr

/-- Error outcomes surfaced by the modelled operations. -/
inductive CErr where
  | badArgument
  | badInternalCall
  | valueNotFound
  deriving DecidableEq, Repr

/-- Model of `cstring_concat` (lines 214-228): the result bytes are the two
operands in order.  The object is obtained from `CSTRING_ALLOC`, which is
`tp_alloc` = `PyType_GenericAlloc` and zero fills the allocation; `concat`
never writes the `hash` field, so the cache of the result is `0`, not the
sentinel `-1` that `_cstring_new` and `_cstring_realloc` store. -/
def cstring_concat (a b : CString) : CString :=
  { bytes := a.bytes ++ b.bytes, cachedHash := 0 }

/-- Cache consultation step of `cstring_hash` (lines 155-159): when the
cached value is the sentinel `-1` the code computes `_Py_HashBytes` over
the `Py_SIZE` byte range (an external routine, modelled as `none` =
"recompute from the bytes"); otherwise it returns the cached value
without looking at the bytes. -/
def cstring_hash_step (s : CString) : Option Int :=
  if s.cachedHash = -1 then none else some s.cachedHash

/-- Comparison loop of `cstring_richcompare` (lines 161-187): advance both
pointers while both bytes are nonzero and equal; the buffers carry their
terminators, and the empty list cases are unreachable padding that keeps
the definition total (a missing byte reads as the terminator 0). -/
def cstrEqLoop : List Nat → List Nat → Bool
  | a :: as, b :: bs =>
    if a != 0 && b != 0 && a == b then cstrEqLoop as bs else a == b
  | a :: _, [] => a == 0
  | [], b :: _ => b == 0
  | [], [] => true

/-- Model of `cstring_richcompare` with `Py_EQ`: the loop above on the two
terminated buffers, then `*left == *right`. -/
def cstring_eq (a b : CString) : Bool :=
  cstrEqLoop (a.bytes ++ [0]) (b.bytes ++ [0])

/-- ASCII classification used by the C ctype calls in the source (C
locale): alphanumeric bytes. -/
def isalnumB (c : Nat) : Bool :=
  (48 ≤ c && c ≤ 57) || (65 ≤ c && c ≤ 90) || (97 ≤ c && c ≤ 122)

/-- ASCII alphabetic bytes (C locale `isalpha`). -/
def isalphaB (c : Nat) : Bool :=
  (65 ≤ c && c ≤ 90) || (97 ≤ c && c ≤ 122)

/-- ASCII digit bytes (C locale `isdigit`). -/
def isdigitB (c : Nat) : Bool := 48 ≤ c && c ≤ 57

/-- ASCII printable bytes (C locale `isprint`). -/
def isprintB (c : Nat) : Bool := 32 ≤ c && c ≤ 126

/-- ASCII whitespace bytes (C locale `isspace`): space, tab, newline,
vertical tab, formfeed, carriage return. -/
def isspaceB (c : Nat) : Bool :=
  c == 32 || c == 9 || c == 10 || c == 11 || c == 12 || c == 13

/-- ASCII lowercase bytes (C locale `islower`). -/
def islowerB (c : Nat) : Bool := 97 ≤ c && c ≤ 122

/-- ASCII uppercase bytes (C locale `isupper`). -/
def isupperB (c : Nat) : Bool := 65 ≤ c && c ≤ 90

/-- Model of `cstring_isalnum` (lines 417-426): walk the C string view;
return false at the first byte that fails `isalnum`; reaching the
terminator returns true, so the loop is vacuously true on the empty
value. -/
def cstring_isalnum (v : List Nat) : Bool := (cstr v).all isalnumB

/-- Model of `cstring_isalpha` (lines 428-437), same loop shape. -/
def cstring_isalpha (v : List Nat) : Bool := (cstr v).all isalphaB

/-- Model of `cstring_isdigit` (lines 439-448), same loop shape. -/
def cstring_isdigit (v : List Nat) : Bool := (cstr v).all isdigitB

/-- Model of `cstring_isprintable` (lines 471-480), same loop shape. -/
def cstring_isprintable (v : List Nat) : Bool := (cstr v).all isprintB

/-- Model of `cstring_isspace` (lines 482-491): the same loop, but the
final return is `p != CSTRING_VALUE(self)`, i.e. the scan must have
advanced, so the empty value yields false. -/
def cstring_isspace (v : List Nat) : Bool :=
  (cstr v).all isspaceB && !(cstr v).isEmpty

/-- Model of `cstring_islower` (lines 450-469): scan to the first
alphabetic byte; true iff one exists and no alphabetic byte anywhere in
the C string view is uppercase.  Equivalently: the alphabetic bytes form a
nonempty list of lowercase bytes. -/
def cstring_islower (v : List Nat) : Bool :=
  let a := (cstr v).filter isalphaB
  !a.isEmpty && a.all islowerB

/-- Model of `cstring_isupper` (lines 493-512), mirror image of
`cstring_islower`. -/
def cstring_isupper (v : List Nat) : Bool :=
  let a := (cstr v).filter isalphaB
  !a.isEmpty && a.all isupperB

/-- CLAIM C1.  The claim requires every StringValue producing operation to
return its result with the cache equal to the sentinel or to the correct
hash, and equal values to hash equal.  The code violates both parts:
`cstring_concat` allocates with the zero filling `tp_alloc` and never
initialises `hash`, so its result carries cache `0` and a later hash query
returns `0` without recomputing (first two conjuncts), while a fresh value
with the same bytes has the sentinel and does recompute (third conjunct);
and the terminator bounded equality of `cstring_richcompare` reports two
values with different hashed byte ranges as equal (last two conjuncts). -/
theorem concat_hash_cache_stale :
    (cstring_concat ⟨[97], -1⟩ ⟨[98], -1⟩).cachedHash = 0 ∧
    cstring_hash_step (cstring_concat ⟨[97], -1⟩ ⟨[98], -1⟩) = some 0 ∧
    cstring_hash_step ⟨[97, 98], -1⟩ = none ∧
    cstring_eq ⟨[0, 97], -1⟩ ⟨[0, 98], -1⟩ = true ∧
    ([0, 97] : List Nat) ≠ [0, 98] := by
  refine ⟨rfl, rfl, rfl, rfl, by decide⟩

/-- CLAIM C2.  The claim states that isalnum, isalpha, isdigit, isspace
and isprintable are true iff the value is nonempty and all bytes satisfy
the predicate, and in particular that all the listed predicates are false
on the empty value.  The code returns true from the vacuous loops of
isalnum, isalpha, isdigit and isprintable on the empty value; only
isspace, islower and isupper return false there. -/
theorem empty_value_predicates :
    cstring_isalnum [] = true ∧
    cstring_isalpha [] = true ∧
    cstring_isdigit [] = true ∧
    cstring_isprintable [] = true ∧
    cstring_isspace [] = false ∧
    cstring_islower [] = false ∧
    cstring_isupper [] = false := by
  refine ⟨rfl, rfl, rfl, rfl, rfl, rfl, rfl⟩

/-- Byte set of `WHITESPACE_CHARS` (" \t\n\v\f\r"), the default separator
set for split and strip. -/
def wsBytes : List Nat := [32, 9, 10, 11, 12, 13]

/-- Membership in the whitespace separator set, the nonzero byte case of
`strchr(WHITESPACE_CHARS, c)`. -/
def isSepB (c : Nat) : Bool := wsBytes.contains c

/-- Byte at buffer offset `i` of the value `v ++ [0]`; offsets past the
terminator are out of bounds in the C code (undefined behaviour) and are
modelled as reading 0, which makes the scans below stop there. -/
def bufGet (v : List Nat) (i : Nat) : Nat := (v ++ [0]).getD i 0

/-- Loop body chain of `_cstring_split_on_chars` (lines 658-699), one
outer iteration per recursive call.  `start` is a buffer offset, `k` the
number of fields already produced, `ms` the adjusted maxsplit.  Faithful
to the source: the field scan runs while the byte is nonzero and not a
separator; the skip scan starts at `end + 1` (one past the field,
unconditionally) and runs while the byte is nonzero and a separator; after
appending a field the code appends the C string remainder and stops when
`len(list) + 1 > maxsplit`.  There is no leading separator skip before the
first field.  The fuel argument only guards termination; `start` strictly
increases, so fuel `v.length + 2` is never exhausted. -/
def splitChGo (v : List Nat) (ms : Nat) : Nat → Nat → Nat → List (List Nat)
  | 0, _, _ => []
  | fuel + 1, start, k =>
    if bufGet v start = 0 then []
    else
      let field := (v.drop start).takeWhile (fun c => c != 0 && !isSepB c)
      let e := start + field.length
      let skiplen := ((v.drop (e + 1)).takeWhile (fun c => c != 0 && isSepB c)).length
      let start2 := e + 1 + skiplen
      if ms < k + 2 then
        [field, (v.drop start2).takeWhile (fun c => c != 0)]
      else field :: splitChGo v ms fuel start2 (k + 1)

/-- Value of `PY_SSIZE_T_MAX`, which the split functions substitute for a
negative maxsplit. -/
def ssizeMax : Nat := 2 ^ 63 - 1

/-- Adjusted maxsplit: negative means unlimited (`PY_SSIZE_T_MAX`). -/
def fixMaxsplit (m : Int) : Nat := if m < 0 then ssizeMax else m.toNat

/-- Model of `cstring_split` with `sep=None` (default whitespace mode),
dispatching to `_cstring_split_on_chars`. -/
def cstring_split_ws (v : List Nat) (m : Int) : List (List Nat) :=
  splitChGo v (fixMaxsplit m) (v.length + 2) 0 0

/-- CLAIM C3.  The claim states that default mode split drops leading
separator runs and produces no empty fields, with
split("  a   b  ") = ["a", "b"].  The code never skips separators before
the first field scan, so a leading separator run produces one empty first
field: the result on that input is ["", "a", "b"], not ["a", "b"].  The
bytes are 32 = space, 97 = a, 98 = b. -/
theorem split_ws_leading_empty_field :
    cstring_split_ws [32, 32, 97, 32, 32, 32, 98, 32, 32] (-1) =
      [[], [97], [98]] ∧
    ([[], [97], [98]] : List (List Nat)) ≠ [[97], [98]] := by
  refine ⟨by decide, by decide⟩

/-- Model of `_concat_in_place` (lines 193-212).  `selfRefcnt` is the live
reference count of the target that `Py_REFCNT` reads inside
`_cstring_realloc` (lines 60-69).  A missing addition is a bad argument; a
missing target yields `_cstring_copy(other)`, a fresh private copy whose
constructor stores the sentinel hash; a shared target fails the
`Py_REFCNT(self) > 1` guard of `_cstring_realloc` with
`PyErr_BadInternalCall` before any byte is touched; an exclusively owned
target is grown, the addition bytes (full `cstring_len`, binary safe) are
copied to the tail, and `_cstring_realloc` resets the hash cache to the
sentinel `-1`. -/
def concat_in_place (self : Option CString) (selfRefcnt : Nat)
    (other : Option CString) : Except CErr CString :=
  match other with
  | none => .error .badArgument
  | some o =>
    match self with
    | none => .ok ⟨o.bytes, -1⟩
    | some t =>
      if 1 < selfRefcnt then .error .badInternalCall
      else .ok ⟨t.bytes ++ o.bytes, -1⟩

/-- CLAIM C4.  appendInPlace on a target with more than one live reference
fails with the bad internal call error and produces no mutated value; on a
target with exactly one live reference it returns the target bytes
followed by the addition bytes with the hash cache reset to the sentinel;
on an absent target it returns a private copy of the addition (hash cache
at the sentinel, as `_cstring_new` stores). -/
theorem concat_in_place_spec (t o : CString) (rc : Nat) :
    (1 < rc →
      concat_in_place (some t) rc (some o) = .error .badInternalCall) ∧
    concat_in_place (some t) 1 (some o) = .ok ⟨t.bytes ++ o.bytes, -1⟩ ∧
    concat_in_place none rc (some o) = .ok ⟨o.bytes, -1⟩ := by
  refine ⟨fun h => ?_, rfl, rfl⟩
  simp [concat_in_place, if_pos h]

/-- Witness for the C4 theorem at concrete inputs: a shared target (two
references) fails, an exclusively owned target appends. -/
theorem concat_in_place_spec_witness :
    concat_in_place (some ⟨[97], -1⟩) 2 (some ⟨[98], 5⟩) =
      .error .badInternalCall ∧
    concat_in_place (some ⟨[97], -1⟩) 1 (some ⟨[98], 5⟩) =
      .ok ⟨[97, 98], -1⟩ ∧
    concat_in_place none 2 (some ⟨[98], 5⟩) = .ok ⟨[98], -1⟩ :=
  ⟨(concat_in_place_spec ⟨[97], -1⟩ ⟨[98], 5⟩ 2).1 (by decide),
   (concat_in_place_spec ⟨[97], -1⟩ ⟨[98], 5⟩ 1).2.1,
   (concat_in_place_spec ⟨[97], -1⟩ ⟨[98], 5⟩ 2).2.2⟩

/-- Prefix test implies the prefix is no longer than the list. -/
theorem isPrefixOf_length_le (f l : List Nat) (h : f.isPrefixOf l = true) :
    f.length ≤ l.length := by
  induction f generalizing l with
  | nil => simp
  | cons a as ih =>
    cases l with
    | nil => simp [List.isPrefixOf] at h
    | cons b bs =>
      simp only [List.isPrefixOf, Bool.and_eq_true] at h
      simpa using ih bs h.2

/-- Prefix test recovers the initial segment of the list. -/
theorem isPrefixOf_take (f l : List Nat) (h : f.isPrefixOf l = true) :
    l.take f.length = f := by
  induction f generalizing l with
  | nil => simp
  | cons a as ih =>
    cases l with
    | nil => simp [List.isPrefixOf] at h
    | cons b bs =>
      simp only [List.isPrefixOf, Bool.and_eq_true, beq_iff_eq] at h
      simp [h.1, ih bs h.2]

/-- Decomposition of a list along a verified prefix. -/
theorem eq_append_of_isPrefixOf (f l : List Nat) (h : f.isPrefixOf l = true) :
    l = f ++ l.drop f.length := by
  conv_lhs => rw [← List.take_append_drop f.length l]
  rw [isPrefixOf_take f l h]

/-- Unfolding equation of `strstrIdx` on the empty haystack. -/
theorem strstrIdx_nil (f : List Nat) :
    strstrIdx [] f = if f.isPrefixOf [] then some 0 else none := rfl

/-- Unfolding equation of `strstrIdx` on a nonempty haystack. -/
theorem strstrIdx_cons (c : Nat) (t f : List Nat) :
    strstrIdx (c :: t) f =
      if f.isPrefixOf (c :: t) then some 0
      else (strstrIdx t f).map (fun j => j + 1) := rfl

/-- A successful `strstr` result is an occurrence. -/
theorem strstrIdx_some_pref (s f : List Nat) (j : Nat)
    (h : strstrIdx s f = some j) : f.isPrefixOf (s.drop j) = true := by
  induction s generalizing j with
  | nil =>
    rw [strstrIdx_nil] at h
    split at h
    · rename_i hp
      cases h
      rw [List.drop_nil]
      exact hp
    · exact absurd h (by simp)
  | cons c t ih =>
    rw [strstrIdx_cons] at h
    split at h
    · rename_i hp
      cases h
      rw [List.drop_zero]
      exact hp
    · cases hst : strstrIdx t f with
      | none => rw [hst] at h; simp at h
      | some j2 =>
        rw [hst] at h
        simp at h
        rw [← h, List.drop_succ_cons]
        exact ih j2 hst

/-- A successful `strstr` result is the first occurrence. -/
theorem strstrIdx_some_min (s f : List Nat) (j : Nat)
    (h : strstrIdx s f = some j) :
    ∀ k, k < j → f.isPrefixOf (s.drop k) = false := by
  induction s generalizing j with
  | nil =>
    rw [strstrIdx_nil] at h
    split at h
    · cases h
      intro k hk
      omega
    · exact absurd h (by simp)
  | cons c t ih =>
    rw [strstrIdx_cons] at h
    split at h
    · cases h
      intro k hk
      omega
    · rename_i hp
      cases hst : strstrIdx t f with
      | none => rw [hst] at h; simp at h
      | some j2 =>
        rw [hst] at h
        simp at h
        intro k hk
        cases k with
        | zero =>
          rw [List.drop_zero]
          exact Bool.eq_false_iff.mpr hp
        | succ k2 =>
          rw [List.drop_succ_cons]
          exact ih j2 hst k2 (by omega)

/-- A failed `strstr` means no occurrence at any offset. -/
theorem strstrIdx_none (s f : List Nat) (h : strstrIdx s f = none) :
    ∀ k, f.isPrefixOf (s.drop k) = false := by
  induction s with
  | nil =>
    rw [strstrIdx_nil] at h
    split at h
    · exact absurd h (by simp)
    · rename_i hp
      intro k
      rw [List.drop_nil]
      exact Bool.eq_false_iff.mpr hp
  | cons c t ih =>
    rw [strstrIdx_cons] at h
    split at h
    · exact absurd h (by simp)
    · rename_i hp
      have h2 : strstrIdx t f = none := by
        cases hst : strstrIdx t f with
        | none => rfl
        | some j2 => rw [hst] at h; simp at h
      intro k
      cases k with
      | zero =>
        rw [List.drop_zero]
        exact Bool.eq_false_iff.mpr hp
      | succ k2 =>
        rw [List.drop_succ_cons]
        exact ih h2 k2

/-- Dropping inside the `takeWhile` region commutes with `takeWhile`. -/
theorem takeWhile_drop_comm (q : Nat → Bool) (l : List Nat) (k : Nat)
    (h : k ≤ (l.takeWhile q).length) :
    (l.takeWhile q).drop k = (l.drop k).takeWhile q := by
  induction l generalizing k with
  | nil => simp
  | cons c t ih =>
    cases hq : q c with
    | true =>
      cases k with
      | zero => simp
      | succ k2 =>
        have h2 : k2 ≤ (t.takeWhile q).length := by
          rw [List.takeWhile_cons, hq] at h
          simpa using h
        rw [List.takeWhile_cons, hq]
        simp only [if_true, List.drop_succ_cons]
        exact ih k2 h2
    | false =>
      have hz : List.takeWhile q (c :: t) = [] := by
        rw [List.takeWhile_cons, hq]
        simp
      rw [hz] at h ⊢
      simp only [List.length_nil, Nat.le_zero] at h
      subst h
      rw [List.drop_zero, List.drop_zero]
      exact hz.symm

/-- Advancing the buffer offset by a distance that stays inside the
current C string segment lands in the same segment. -/
theorem segAt_drop (v : List Nat) (p k : Nat)
    (h : k ≤ (segAt v p).length) :
    (segAt v p).drop k = segAt v (p + k) := by
  unfold segAt at h ⊢
  rw [takeWhile_drop_comm _ _ _ h, List.drop_drop]

/-- Loop of `cstring_count` (lines 348-365), one iteration per recursive
call.  `p` is the buffer offset of the search cursor, `res` the running
count, `e0` the clamped window end.  Faithful to the source: `strstr`
searches the C string at the cursor for the terminator bounded needle, a
found match is counted at once, the cursor advances by the full pattern
length `substr_len`, and only then is the cursor compared with the window
end.  The fuel argument makes the partial loop total: `none` means the
iteration budget was exhausted, and an empty needle makes the loop run
forever because the cursor never moves. -/
def countGo (v pat : List Nat) (e0 : Nat) : Nat → Nat → Nat → Option Nat
  | 0, _, _ => none
  | fuel + 1, p, res =>
    match strstrIdx (segAt v p) (cstr pat) with
    | none => some res
    | some j =>
      if e0 ≤ p + j + pat.length then some (res + 1)
      else countGo v pat e0 fuel (p + j + pat.length) (res + 1)

/-- Model of `cstring_count`: parse the window with `_fix_index` clamping,
then run the counting loop from the clamped start with the given fuel. -/
def cstring_count_fuel (fuel : Nat) (v pat : List Nat) (s e : Int) :
    Option Nat :=
  countGo v pat (fix_index e v.length) fuel (fix_index s v.length) 0

/-- Step identity of the count loop on the C10 failing input: the cursor
stays at 0 because the empty needle matches at the cursor and the cursor
advances by the pattern length 0. -/
theorem countGo_empty_step (fuel res : Nat) :
    countGo [97] [] 1 (fuel + 1) 0 res = countGo [97] [] 1 fuel 0 (res + 1) :=
  rfl

/-- CLAIM C10.  The claim states that every operation terminates, in
particular `count` with an empty pattern on a nonempty value.  On the
value "a" (byte 97) with the empty pattern and the default window, the
count loop returns no result no matter how much fuel it is given: the
cursor never advances and the stop test `cursor >= end` never fires, so
the C loop runs forever. -/
theorem count_empty_pattern_diverges :
    ∀ fuel : Nat, cstring_count_fuel fuel [97] [] 0 (ssizeMax : Int) = none := by
  have key : ∀ fuel res, countGo [97] [] 1 fuel 0 res = none := by
    intro fuel
    induction fuel with
    | zero => intro res; rfl
    | succ f ih =>
      intro res
      rw [countGo_empty_step f res]
      exact ih (res + 1)
  intro fuel
  have he : fix_index (ssizeMax : Int) 1 = 1 := by decide
  have hs : fix_index 0 1 = 0 := by decide
  unfold cstring_count_fuel
  simpa [he, hs] using key fuel 0

/-- CLAIM C9, counterexample part.  The claim states that no occurrence
outside the clamped window is counted.  On the value "ba" (bytes 98, 97)
with pattern "a" (byte 97) and window start 0, end 1, the only occurrence
of the pattern starts at offset 1 and ends at offset 2, entirely outside
the window [0, 1); yet the loop counts it (the cursor check happens only
after counting), so `count` returns 1 while the number of occurrences
lying within the window is 0. -/
theorem count_window_overrun :
    cstring_count_fuel 4 [98, 97] [97] 0 1 = some 1 ∧
    ((List.range 2).filter
      (fun i => decide (i + 1 ≤ 1) && [97].isPrefixOf ([98, 97].drop i))).length
      = 0 ∧
    (1 : Nat) ≠ 0 := by
  refine ⟨by decide, by decide, by decide⟩

/-- Greedy scanning specification, written from the amended claim: count
the matches of a repeated forward search in which each found match is
counted at once (even when its end reaches or passes the window end) and
the search resumes at the match position plus the pattern length only
while that cursor is still short of the window end.  `rem` is the not yet
scanned part of the C string being searched and `cur` its absolute buffer
offset; the budget argument only bounds the recursion depth. -/
def countSpecGo (f : List Nat) (ep : Nat) : Nat → List Nat → Nat → Nat
  | 0, _, _ => 0
  | b + 1, rem, cur =>
    match strstrIdx rem f with
    | none => 0
    | some j =>
      1 + (if ep ≤ cur + j + f.length then 0
           else countSpecGo f ep b (rem.drop (j + f.length)) (cur + j + f.length))

/-- Greedy scanning specification at the clamped window of
`cstring_count`: scan the C string that starts at the clamped start
offset. -/
def countSpec (v f : List Nat) (s e : Int) : Nat :=
  countSpecGo f (fix_index e v.length) (v.length + 1)
    (segAt v (fix_index s v.length)) (fix_index s v.length)

/-- Clamped indices never exceed the length. -/
theorem fix_index_le (i : Int) (len : Nat) : fix_index i len ≤ len := by
  unfold fix_index
  dsimp only
  generalize (if i < 0 then i + (len : Int) else i) = r
  split
  · exact Nat.zero_le _
  · split
    · exact Nat.le_refl _
    · rename_i h1 h2
      omega

/-- The counting loop of the source equals the greedy scanning
specification, provided the pattern is nonempty and zero free (so that
the loop cursor advances exactly through the scanned C string) and the
fuel covers the value length. -/
theorem countGo_eq_spec (v pat : List Nat) (ep : Nat) (hep : ep ≤ v.length)
    (hcp : cstr pat = pat) (hne : pat ≠ []) :
    ∀ fuel p res b, p ≤ v.length + 1 → v.length + 1 - p ≤ b →
      v.length + 2 - p ≤ fuel →
      countGo v pat ep fuel p res =
        some (res + countSpecGo pat ep b (segAt v p) p) := by
  intro fuel
  induction fuel with
  | zero =>
    intro p res b hp hb hf
    omega
  | succ f ih =>
    intro p res b hp hb hf
    have hgo : countGo v pat ep (f + 1) p res =
        match strstrIdx (segAt v p) (cstr pat) with
        | none => some res
        | some j =>
          if ep ≤ p + j + pat.length then some (res + 1)
          else countGo v pat ep f (p + j + pat.length) (res + 1) := rfl
    cases hst : strstrIdx (segAt v p) pat with
    | none =>
      have hgo2 : countGo v pat ep (f + 1) p res = some res := by
        rw [hgo, hcp, hst]
      have hz : countSpecGo pat ep b (segAt v p) p = 0 := by
        cases b with
        | zero => rfl
        | succ b2 =>
          have e1 : countSpecGo pat ep (b2 + 1) (segAt v p) p =
              match strstrIdx (segAt v p) pat with
              | none => 0
              | some j => 1 + (if ep ≤ p + j + pat.length then 0
                  else countSpecGo pat ep b2 ((segAt v p).drop (j + pat.length))
                    (p + j + pat.length)) := rfl
          rw [e1, hst]
      rw [hgo2, hz]
      rfl
    | some j =>
      have hgo2 : countGo v pat ep (f + 1) p res =
          if ep ≤ p + j + pat.length then some (res + 1)
          else countGo v pat ep f (p + j + pat.length) (res + 1) := by
        rw [hgo, hcp, hst]
      have hpref := strstrIdx_some_pref _ _ _ hst
      have hlen := isPrefixOf_length_le _ _ hpref
      rw [List.length_drop] at hlen
      have hpatpos : 0 < pat.length := List.length_pos_of_ne_nil hne
      have hjlen : j + pat.length ≤ (segAt v p).length := by omega
      have hsegle : (segAt v p).length ≤ v.length - p := by
        have h1 : (segAt v p).length ≤ (v.drop p).length := by
          unfold segAt
          exact (List.takeWhile_prefix _).length_le
        rw [List.length_drop] at h1
        exact h1
      have hb2 : ∃ b2, b = b2 + 1 := ⟨b - 1, by omega⟩
      obtain ⟨b2, rfl⟩ := hb2
      have e2 : countSpecGo pat ep (b2 + 1) (segAt v p) p =
          1 + (if ep ≤ p + j + pat.length then 0
            else countSpecGo pat ep b2 ((segAt v p).drop (j + pat.length))
              (p + j + pat.length)) := by
        have e1 : countSpecGo pat ep (b2 + 1) (segAt v p) p =
            match strstrIdx (segAt v p) pat with
            | none => 0
            | some j2 => 1 + (if ep ≤ p + j2 + pat.length then 0
                else countSpecGo pat ep b2 ((segAt v p).drop (j2 + pat.length))
                  (p + j2 + pat.length)) := rfl
        rw [e1, hst]
      rw [hgo2, e2]
      by_cases hend : ep ≤ p + j + pat.length
      · rw [if_pos hend, if_pos hend]
      · rw [if_neg hend, if_neg hend,
          segAt_drop v p (j + pat.length) hjlen]
        have happ := ih (p + (j + pat.length)) (res + 1) b2
          (by omega) (by omega) (by omega)
        rw [Nat.add_assoc p j pat.length, happ]
        congr 1
        omega

/-- CLAIM C9, amended.  count returns the number of matches of the greedy
non overlapping forward scan from the clamped start in the terminator
bounded text: each found match is counted at once, even when its end
reaches or passes the clamped window end (so up to one counted occurrence
may extend beyond or lie past the end), and the search resumes at the
match position plus the pattern length only while that cursor is short of
the window end.  Stated as: for a nonempty, zero free pattern and enough
fuel, the source loop computes exactly the greedy scanning
specification. -/
theorem count_matches_greedy_spec (v pat : List Nat) (s e : Int) (fuel : Nat)
    (hcp : cstr pat = pat) (hne : pat ≠ []) (hf : v.length + 2 ≤ fuel) :
    cstring_count_fuel fuel v pat s e = some (countSpec v pat s e) := by
  unfold cstring_count_fuel countSpec
  have h := countGo_eq_spec v pat (fix_index e v.length)
    (fix_index_le e v.length) hcp hne fuel (fix_index s v.length) 0
    (v.length + 1)
    (Nat.le_trans (fix_index_le s v.length) (by omega))
    (by omega) (by omega)
  rw [h]
  simp

/-- Witness for the C9 amended theorem: on the value "abab" with pattern
"ab" and the full window, the loop agrees with the greedy specification,
whose value there is 2. -/
theorem count_matches_greedy_spec_witness :
    cstring_count_fuel 6 [97, 98, 97, 98] [97, 98] 0 4 =
      some (countSpec [97, 98, 97, 98] [97, 98] 0 4) ∧
    countSpec [97, 98, 97, 98] [97, 98] 0 4 = 2 :=
  ⟨count_matches_greedy_spec [97, 98, 97, 98] [97, 98] 0 4 6
    (by decide) (by decide) (by decide), by decide⟩

/-- A successful `strstr` offset never passes the end of the haystack. -/
theorem strstrIdx_le_length (s f : List Nat) (j : Nat)
    (h : strstrIdx s f = some j) : j ≤ s.length := by
  induction s generalizing j with
  | nil =>
    rw [strstrIdx_nil] at h
    split at h
    · cases h
      exact Nat.le_refl 0
    · exact absurd h (by simp)
  | cons c t ih =>
    rw [strstrIdx_cons] at h
    split at h
    · cases h
      exact Nat.zero_le _
    · cases hst : strstrIdx t f with
      | none => rw [hst] at h; simp at h
      | some j2 =>
        rw [hst] at h
        simp at h
        rw [← h, List.length_cons]
        exact Nat.succ_le_succ (ih j2 hst)

/-- Window search of `_substr_params_str` (lines 367-372): `strstr` runs
from the clamped start on the terminator bounded text with the terminator
bounded needle, and a found match is rejected when its end, measured with
the full `substr_len` of the pattern, passes the clamped window end.  The
result is the absolute buffer offset of the accepted match. -/
def substr_str (v pat : List Nat) (s e : Int) : Option Nat :=
  (strstrIdx (segAt v (fix_index s v.length)) (cstr pat)).bind (fun j =>
    if fix_index e v.length < fix_index s v.length + j + pat.length then none
    else some (fix_index s v.length + j))

/-- Model of `cstring_find` (lines 387-399): the window search result, or
-1 when it is empty. -/
def cstring_find (v pat : List Nat) (s e : Int) : Int :=
  (substr_str v pat s e).elim (-1) (fun i => (i : Int))

/-- Model of `cstring_index` (lines 401-415): the window search result, or
the ValueError "substring not found" when it is empty. -/
def cstring_index (v pat : List Nat) (s e : Int) : Except CErr Nat :=
  (substr_str v pat s e).elim (Except.error CErr.valueNotFound) Except.ok

/-- CLAIM C6.  find and index agree on every input: when `j` is the first
match of the (terminator bounded) needle in the searched text starting at
the clamped start and the match end, measured with the full pattern
length, stays within the clamped window end, both return the absolute
offset of that match (find as the integer, index as the ok result); when
no match within the window end exists, find returns -1 and index signals
the value error, on the same inputs. -/
theorem find_index_first_match (v pat : List Nat) (s e : Int) (j : Nat) :
    ((cstr pat).isPrefixOf
        ((segAt v (fix_index s v.length)).drop j) = true →
     (∀ k, k < j →
        (cstr pat).isPrefixOf
          ((segAt v (fix_index s v.length)).drop k) = false) →
     fix_index s v.length + j + pat.length ≤ fix_index e v.length →
     cstring_find v pat s e = ((fix_index s v.length + j : Nat) : Int) ∧
       cstring_index v pat s e = Except.ok (fix_index s v.length + j))
    ∧ ((∀ k, k < v.length + 1 →
         ¬((cstr pat).isPrefixOf
             ((segAt v (fix_index s v.length)).drop k) = true ∧
           fix_index s v.length + k + pat.length ≤ fix_index e v.length)) →
       cstring_find v pat s e = -1 ∧
         cstring_index v pat s e = Except.error CErr.valueNotFound) := by
  constructor
  · intro hpre hmin hbound
    have hsome : strstrIdx (segAt v (fix_index s v.length)) (cstr pat) = some j := by
      cases hst : strstrIdx (segAt v (fix_index s v.length)) (cstr pat) with
      | none => exact absurd hpre (by simp [strstrIdx_none _ _ hst j])
      | some j2 =>
        rcases Nat.lt_trichotomy j2 j with hlt | heq | hgt
        · exact absurd (strstrIdx_some_pref _ _ _ hst)
            (by simp [hmin j2 hlt])
        · rw [heq]
        · exact absurd hpre (by simp [strstrIdx_some_min _ _ _ hst j hgt])
    have hres : substr_str v pat s e = some (fix_index s v.length + j) := by
      unfold substr_str
      rw [hsome, Option.some_bind, if_neg (by omega)]
    constructor
    · unfold cstring_find
      rw [hres, Option.elim_some]
    · unfold cstring_index
      rw [hres, Option.elim_some]
  · intro hno
    have hres : substr_str v pat s e = none := by
      unfold substr_str
      cases hst : strstrIdx (segAt v (fix_index s v.length)) (cstr pat) with
      | none => rw [Option.none_bind]
      | some j2 =>
        rw [Option.some_bind]
        have hj2 : j2 ≤ v.length := by
          have h1 := strstrIdx_le_length _ _ _ hst
          have h2 : (segAt v (fix_index s v.length)).length ≤
              (v.drop (fix_index s v.length)).length := by
            unfold segAt
            exact (List.takeWhile_prefix _).length_le
          rw [List.length_drop] at h2
          omega
        have hpre2 := strstrIdx_some_pref _ _ _ hst
        have hnb : ¬(fix_index s v.length + j2 + pat.length ≤
            fix_index e v.length) :=
          fun hb => hno j2 (by omega) ⟨hpre2, hb⟩
        rw [if_pos (by omega)]
    constructor
    · unfold cstring_find
      rw [hres, Option.elim_none]
    · unfold cstring_index
      rw [hres, Option.elim_none]

/-- Witness for the C6 theorem: on "abc" with pattern "b" and window
[0, 3) the first match is at offset 1 and both operations report it; on
"a" with pattern "b" there is no match, find returns -1 and index signals
the value error. -/
theorem find_index_first_match_witness :
    (cstring_find [97, 98, 99] [98] 0 3 = 1 ∧
      cstring_index [97, 98, 99] [98] 0 3 = Except.ok 1) ∧
    (cstring_find [97] [98] 0 1 = -1 ∧
      cstring_index [97] [98] 0 1 = Except.error CErr.valueNotFound) :=
  ⟨(find_index_first_match [97, 98, 99] [98] 0 3 1).1
      (by decide) (by decide) (by decide),
   (find_index_first_match [97] [98] 0 1 0).2 (by decide)⟩

/-- A zero free byte list is its own C string view. -/
theorem cstr_eq_self (v : List Nat) (h : (0 : Nat) ∉ v) : cstr v = v := by
  induction v with
  | nil => rfl
  | cons c t ih =>
    have hc : c ≠ 0 := fun hc0 => h (by rw [hc0]; exact List.mem_cons_self 0 t)
    have ht : (0 : Nat) ∉ t := fun h0 => h (List.mem_cons_of_mem c h0)
    unfold cstr at ih ⊢
    rw [List.takeWhile_cons]
    simp only [hc, ne_eq, not_false_eq_true, bne_iff_ne, if_true]
    rw [ih ht]

/-- The first match determines the `strstr` result. -/
theorem strstrIdx_eq_some_of_first (s f : List Nat) (j : Nat)
    (hpre : f.isPrefixOf (s.drop j) = true)
    (hmin : ∀ k, k < j → f.isPrefixOf (s.drop k) = false) :
    strstrIdx s f = some j := by
  cases hst : strstrIdx s f with
  | none => exact absurd hpre (by simp [strstrIdx_none _ _ hst j])
  | some j2 =>
    rcases Nat.lt_trichotomy j2 j with hlt | heq | hgt
    · exact absurd (strstrIdx_some_pref _ _ _ hst) (by simp [hmin j2 hlt])
    · rw [heq]
    · exact absurd hpre (by simp [strstrIdx_some_min _ _ _ hst j hgt])

/-- What a successful backward scan reports: a match inside `[1, k]` that
is the greatest such match. -/
theorem rstrIdxGo_some (s f : List Nat) (k i : Nat)
    (h : rstrIdxGo s f k = some i) :
    1 ≤ i ∧ i ≤ k ∧ f.isPrefixOf (s.drop i) = true ∧
      ∀ m, i < m → m ≤ k → f.isPrefixOf (s.drop m) = false := by
  induction k with
  | zero => exact absurd h (by simp [rstrIdxGo])
  | succ k2 ih =>
    rw [rstrIdxGo] at h
    split at h
    · rename_i hp
      cases h
      refine ⟨by omega, Nat.le_refl _, hp, ?_⟩
      intro m h1 h2
      omega
    · rename_i hp
      obtain ⟨h1, h2, h3, h4⟩ := ih h
      refine ⟨h1, by omega, h3, ?_⟩
      intro m hm1 hm2
      rcases Nat.lt_or_ge m (k2 + 1) with hlt | hge
      · exact h4 m hm1 (by omega)
      · have hm : m = k2 + 1 := by omega
        rw [hm]
        exact Bool.eq_false_iff.mpr hp

/-- A failed backward scan means no match inside `[1, k]`. -/
theorem rstrIdxGo_none (s f : List Nat) (k : Nat)
    (h : rstrIdxGo s f k = none) :
    ∀ m, 1 ≤ m → m ≤ k → f.isPrefixOf (s.drop m) = false := by
  induction k with
  | zero =>
    intro m h1 h2
    omega
  | succ k2 ih =>
    rw [rstrIdxGo] at h
    split at h
    · exact absurd h (by simp)
    · rename_i hp
      intro m h1 h2
      rcases Nat.lt_or_ge m (k2 + 1) with hlt | hge
      · exact ih h m h1 (by omega)
      · have hm : m = k2 + 1 := by omega
        rw [hm]
        exact Bool.eq_false_iff.mpr hp

/-- Model of `cstring_partition` (lines 581-602): `strstr` locates the
first occurrence of the terminator bounded needle in the terminator
bounded text; on a match the triple is cut from the buffer, the before
part up to the match, the separator part of `strlen(search)` bytes from
the match, and the after part running to the true end of the value
(`&CSTRING_LAST_BYTE(self) - right` bytes, length bounded); with no match,
the triple is (the original value, empty, empty), the original shared as a
new reference. -/
def cstring_partition (v pat : List Nat) :
    List Nat × List Nat × List Nat :=
  match strstrIdx (cstr v) (cstr pat) with
  | none => (v, [], [])
  | some i =>
    (v.take i, (v.drop i).take (cstr pat).length, v.drop (i + (cstr pat).length))

/-- Model of `cstring_rpartition` (lines 604-625): as `cstring_partition`
but locating the occurrence with `_strrstr`, whose backward scan only
tests offsets `strlen(s) - 1` down to `1`; with no match the triple is
(empty, empty, the original value). -/
def cstring_rpartition (v pat : List Nat) :
    List Nat × List Nat × List Nat :=
  match rstrIdx (cstr v) (cstr pat) with
  | none => ([], [], v)
  | some i =>
    (v.take i, (v.drop i).take (cstr pat).length, v.drop (i + (cstr pat).length))

/-- CLAIM C5, counterexample.  The claim states that rpartition returns
the triple around the last occurrence for every position of that
occurrence including offset 0.  On the value "ab" with pattern "ab" the
only occurrence is at offset 0, but the backward scan of `_strrstr` never
tests offset 0 (`for(; p > s; --p)`), so the code returns the no match
triple (empty, empty, "ab") instead of ("", "ab", ""). -/
theorem rpartition_misses_offset_zero :
    cstring_rpartition [97, 98] [97, 98] = ([], [], [97, 98]) ∧
    (([], [], [97, 98]) : List Nat × List Nat × List Nat) ≠
      ([], [97, 98], []) := by
  refine ⟨by decide, by decide⟩

/-- CLAIM C5, amended.  For zero free value and nonempty zero free
pattern: partition returns (before, matched separator, after) around the
first occurrence, at any offset including 0, and (original, empty, empty)
when there is no occurrence; rpartition returns the triple around the
last occurrence when that occurrence starts at a positive offset, but the
backward scan never tests offset 0, so when every occurrence (if any)
starts at offset 0 it returns (empty, empty, original) as in the no match
case.  Sharing of the unmatched original (a new reference, not a copy) is
an object identity property outside this byte level model. -/
theorem partition_rpartition_amended (v pat : List Nat) (j : Nat)
    (hv : (0 : Nat) ∉ v) (hp : (0 : Nat) ∉ pat) (hne : pat ≠ []) :
    (pat.isPrefixOf (v.drop j) = true →
     (∀ k, k < j → pat.isPrefixOf (v.drop k) = false) →
     cstring_partition v pat = (v.take j, pat, v.drop (j + pat.length)))
    ∧ ((∀ k, k < v.length + 1 → pat.isPrefixOf (v.drop k) = false) →
       cstring_partition v pat = (v, [], []))
    ∧ (1 ≤ j → pat.isPrefixOf (v.drop j) = true →
       (∀ k, k < v.length + 1 → j < k → pat.isPrefixOf (v.drop k) = false) →
       cstring_rpartition v pat = (v.take j, pat, v.drop (j + pat.length)))
    ∧ ((∀ k, k < v.length + 1 → 1 ≤ k → pat.isPrefixOf (v.drop k) = false) →
       cstring_rpartition v pat = ([], [], v)) := by
  have hcv : cstr v = v := cstr_eq_self v hv
  have hcp : cstr pat = pat := cstr_eq_self pat hp
  have hpatpos : 0 < pat.length := List.length_pos_of_ne_nil hne
  refine ⟨?_, ?_, ?_, ?_⟩
  · intro hpre hmin
    have hsome : strstrIdx (cstr v) (cstr pat) = some j := by
      rw [hcv, hcp]
      exact strstrIdx_eq_some_of_first v pat j hpre hmin
    have hmid : (v.drop j).take pat.length = pat := isPrefixOf_take _ _ hpre
    have hred : cstring_partition v pat =
        (v.take j, (v.drop j).take (cstr pat).length,
          v.drop (j + (cstr pat).length)) := by
      unfold cstring_partition
      rw [hsome]
    rw [hred, hcp, hmid]
  · intro hno
    have hnone : strstrIdx (cstr v) (cstr pat) = none := by
      rw [hcv, hcp]
      cases hst : strstrIdx v pat with
      | none => rfl
      | some j2 =>
        have h1 := strstrIdx_some_pref _ _ _ hst
        have h2 := strstrIdx_le_length _ _ _ hst
        exact absurd h1 (by simp [hno j2 (by omega)])
    unfold cstring_partition
    rw [hnone]
  · intro hj1 hpre hmax
    have hlen := isPrefixOf_length_le _ _ hpre
    rw [List.length_drop] at hlen
    have hjle : j ≤ v.length - 1 := by omega
    have hsome : rstrIdx (cstr v) (cstr pat) = some j := by
      rw [hcv, hcp]
      unfold rstrIdx
      cases hr : rstrIdxGo v pat (v.length - 1) with
      | none =>
        exact absurd hpre (by simp [rstrIdxGo_none _ _ _ hr j hj1 hjle])
      | some i =>
        obtain ⟨h1, h2, h3, h4⟩ := rstrIdxGo_some _ _ _ _ hr
        rcases Nat.lt_trichotomy i j with hlt | heq | hgt
        · exact absurd hpre (by simp [h4 j hlt hjle])
        · rw [heq]
        · exact absurd h3 (by simp [hmax i (by omega) hgt])
    have hmid : (v.drop j).take pat.length = pat := isPrefixOf_take _ _ hpre
    have hred : cstring_rpartition v pat =
        (v.take j, (v.drop j).take (cstr pat).length,
          v.drop (j + (cstr pat).length)) := by
      unfold cstring_rpartition
      rw [hsome]
    rw [hred, hcp, hmid]
  · intro hno
    have hnone : rstrIdx (cstr v) (cstr pat) = none := by
      rw [hcv, hcp]
      unfold rstrIdx
      cases hr : rstrIdxGo v pat (v.length - 1) with
      | none => rfl
      | some i =>
        obtain ⟨h1, h2, h3, h4⟩ := rstrIdxGo_some _ _ _ _ hr
        exact absurd h3 (by simp [hno i (by omega) h1])
    unfold cstring_rpartition
    rw [hnone]

/-- Witness for the C5 amended theorem: on "xab" (bytes 120, 97, 98) with
pattern "ab" the single occurrence is at offset 1 and both partition and
rpartition return ("x", "ab", ""). -/
theorem partition_rpartition_amended_witness :
    cstring_partition [120, 97, 98] [97, 98] = ([120], [97, 98], []) ∧
    cstring_rpartition [120, 97, 98] [97, 98] = ([120], [97, 98], []) :=
  ⟨(partition_rpartition_amended [120, 97, 98] [97, 98] 1
      (by decide) (by decide) (by decide)).1 (by decide) (by decide),
   (partition_rpartition_amended [120, 97, 98] [97, 98] 1
      (by decide) (by decide) (by decide)).2.2.1
      (by decide) (by decide) (by decide)⟩

/-- Loop of `_cstring_split_on_cstring` (lines 701-738) over the
terminator bounded text `s` with terminator bounded separator `f`: cut a
field at each `strstr` occurrence, advance by `strlen(sep)`, and always
append the remaining C string as the final field, also when the budget of
split points runs out.  The budget `b` models the maxsplit bookkeeping of
the source, which appends the remainder and breaks once
`len(list) + 1 > maxsplit`; with `k` fields already appended that is
`maxsplit - (k + 1)` reaching zero, so the entry budget is
`maxsplit - 1`. -/
def splitGo (f : List Nat) : Nat → List Nat → List (List Nat)
  | 0, s =>
    match strstrIdx s f with
    | none => [s]
    | some i => [s.take i, s.drop (i + f.length)]
  | b2 + 1, s =>
    match strstrIdx s f with
    | none => [s]
    | some i => s.take i :: splitGo f b2 (s.drop (i + f.length))

/-- With no separator occurrence the whole text is the single field. -/
theorem splitGo_none (f : List Nat) (b : Nat) (s : List Nat)
    (hst : strstrIdx s f = none) : splitGo f b s = [s] := by
  cases b with
  | zero => unfold splitGo; rw [hst]
  | succ b2 => unfold splitGo; rw [hst]

/-- Exhausted budget: one field at the occurrence, then the remainder. -/
theorem splitGo_zero_some (f s : List Nat) (i : Nat)
    (hst : strstrIdx s f = some i) :
    splitGo f 0 s = [s.take i, s.drop (i + f.length)] := by
  unfold splitGo; rw [hst]

/-- Remaining budget: one field at the occurrence, then the loop resumes
past the separator. -/
theorem splitGo_succ_some (f s : List Nat) (b2 i : Nat)
    (hst : strstrIdx s f = some i) :
    splitGo f (b2 + 1) s =
      s.take i :: splitGo f b2 (s.drop (i + f.length)) := by
  conv_lhs => rw [splitGo]
  rw [hst]

/-- Model of `cstring_split` with an explicit separator, dispatching to
`_cstring_split_on_cstring`; a negative maxsplit becomes
`PY_SSIZE_T_MAX`. -/
def cstring_split_on_cstring (v sep : List Nat) (maxsplit : Int) :
    List (List Nat) :=
  splitGo (cstr sep) (fixMaxsplit maxsplit - 1) (cstr v)

/-- Fold step of `cstring_join` (lines 514-543): a missing accumulator
takes a private copy of the element (`_concat_in_place(NULL, item)`);
otherwise the separator bytes (full, length bounded `cstring_len`) and
then the element bytes are appended in place, each append succeeding
because the accumulator was freshly created by the previous step and so
has exactly one reference. -/
def joinStep (sep : List Nat) (acc : Option (List Nat)) (it : List Nat) :
    Option (List Nat) :=
  match acc with
  | none => some it
  | some r => some (r ++ sep ++ it)

/-- Model of `cstring_join`: fold the join step over the element list; an
empty iterable leaves the accumulator missing (`none`, the NULL result of
the source). -/
def cstring_join (sep : List Nat) (items : List (List Nat)) :
    Option (List Nat) :=
  items.foldl (joinStep sep) none

/-- A located separator occurrence decomposes the text. -/
theorem split_decomp (s f : List Nat) (i : Nat)
    (hst : strstrIdx s f = some i) :
    s = s.take i ++ f ++ s.drop (i + f.length) := by
  have hpre := strstrIdx_some_pref _ _ _ hst
  have h2 := eq_append_of_isPrefixOf f (s.drop i) hpre
  rw [List.drop_drop] at h2
  conv_lhs => rw [← List.take_append_drop i s, h2]
  rw [List.append_assoc]

/-- Folding the join step from a present accumulator is plain
concatenation. -/
theorem joinStep_foldl_some (sep : List Nat) (xs : List (List Nat)) :
    ∀ r, xs.foldl (joinStep sep) (some r) =
      some (xs.foldl (fun a it => a ++ sep ++ it) r) := by
  induction xs with
  | nil => intro r; rfl
  | cons x t ih =>
    intro r
    rw [List.foldl_cons, List.foldl_cons]
    exact ih (r ++ sep ++ x)

/-- Joining the split fields with the separator rebuilds the text, at
every budget. -/
theorem join_splitGo (f : List Nat) (b : Nat) (s : List Nat) :
    cstring_join f (splitGo f b s) = some s := by
  have key : ∀ b2 s2 r, (splitGo f b2 s2).foldl (joinStep f) (some r) =
      some (r ++ f ++ s2) := by
    intro b2
    induction b2 with
    | zero =>
      intro s2 r
      cases hst : strstrIdx s2 f with
      | none =>
        rw [splitGo_none f 0 s2 hst]
        rfl
      | some i =>
        rw [splitGo_zero_some f s2 i hst, List.foldl_cons]
        conv_rhs => rw [split_decomp s2 f i hst]
        show List.foldl (joinStep f) (some (r ++ f ++ s2.take i))
          [s2.drop (i + f.length)] =
          some (r ++ f ++ (s2.take i ++ f ++ s2.drop (i + f.length)))
        simp [joinStep, List.append_assoc]
    | succ b3 ih =>
      intro s2 r
      cases hst : strstrIdx s2 f with
      | none =>
        rw [splitGo_none f (b3 + 1) s2 hst]
        rfl
      | some i =>
        rw [splitGo_succ_some f s2 b3 i hst, List.foldl_cons]
        show (splitGo f b3 (s2.drop (i + f.length))).foldl (joinStep f)
          (some (r ++ f ++ s2.take i)) = some (r ++ f ++ s2)
        rw [ih]
        conv_rhs => rw [split_decomp s2 f i hst]
        simp [List.append_assoc]
  cases b with
  | zero =>
    cases hst : strstrIdx s f with
    | none =>
      rw [splitGo_none f 0 s hst]
      rfl
    | some i =>
      rw [splitGo_zero_some f s i hst]
      unfold cstring_join
      rw [List.foldl_cons]
      show List.foldl (joinStep f) (some (s.take i))
        [s.drop (i + f.length)] = some s
      conv_rhs => rw [split_decomp s f i hst]
      simp [joinStep, List.append_assoc]
  | succ b2 =>
    cases hst : strstrIdx s f with
    | none =>
      rw [splitGo_none f (b2 + 1) s hst]
      rfl
    | some i =>
      rw [splitGo_succ_some f s b2 i hst]
      unfold cstring_join
      rw [List.foldl_cons]
      show (splitGo f b2 (s.drop (i + f.length))).foldl (joinStep f)
        (some (s.take i)) = some s
      rw [key]
      conv_rhs => rw [split_decomp s f i hst]
/-- CLAIM C7, counterexample.  The claim states the split then join
roundtrip for every StringValue.  Embedded zero bytes are permitted in a
value, but the split walks the terminator bounded text and the remainder
is cut with `strlen`, so everything after the first zero byte is lost:
splitting "a\x00b" (bytes 97, 0, 98) on "," and joining gives "a", not
the original value. -/
theorem split_join_drops_after_nul :
    cstring_join [44] (cstring_split_on_cstring [97, 0, 98] [44] (-1)) =
      some [97] ∧
    some [97] ≠ some ([97, 0, 98] : List Nat) := by
  refine ⟨by decide, by decide⟩

/-- CLAIM C7, amended.  For a value and a nonempty separator that are both
free of zero bytes, joining with the separator the fields produced by
explicit separator split reconstructs the value exactly, for every
maxsplit argument (the source always appends the remainder when the split
budget runs out). -/
theorem split_join_roundtrip (v sep : List Nat) (ms : Int)
    (hv : (0 : Nat) ∉ v) (hs : (0 : Nat) ∉ sep) (_hne : sep ≠ []) :
    cstring_join sep (cstring_split_on_cstring v sep ms) = some v := by
  unfold cstring_split_on_cstring
  rw [cstr_eq_self v hv, cstr_eq_self sep hs]
  exact join_splitGo sep _ v

/-- Witness for the C7 amended theorem on the claim example: splitting
"a,,b" (bytes 97, 44, 44, 98) on "," yields ["a", "", "b"] and joining
rebuilds "a,,b". -/
theorem split_join_roundtrip_witness :
    cstring_join [44] (cstring_split_on_cstring [97, 44, 44, 98] [44] (-1)) =
      some [97, 44, 44, 98] ∧
    cstring_split_on_cstring [97, 44, 44, 98] [44] (-1) =
      [[97], [], [98]] :=
  ⟨split_join_roundtrip [97, 44, 44, 98] [44] (-1)
      (by decide) (by decide) (by decide),
   by decide⟩

/-- Membership test performed by `strchr(chars, c)` on the strip
character set: the terminating zero byte of the set string counts as a
member, which is the decisive detail of claim C8. -/
def strchrFound (chars : List Nat) (c : Nat) : Bool :=
  chars.contains c || c == 0

/-- Left boundary scan of `cstring_strip` (lines 780-794): walk the
terminated buffer from the left while `strchr(chars, *start)` is nonnull.
The walk is over `v ++ [0]`; because the terminator itself satisfies the
test, running out of the buffer is possible, and that out of bounds read
(undefined behaviour in the source) is modelled as `none`.  A `some i`
result is the offset of the first byte outside the set together with the zero byte. -/
def lscanGo (chars : List Nat) : List Nat → Nat → Option Nat
  | [], _ => none
  | c :: rest, i =>
    if strchrFound chars c then lscanGo chars rest (i + 1) else some i

/-- Left boundary offset of strip, or `none` on buffer over run. -/
def lscan (v chars : List Nat) : Option Nat := lscanGo chars (v ++ [0]) 0

/-- Right boundary scan of `cstring_strip`: start at
`&CSTRING_LAST_BYTE(self) - 1` (offset `length - 1`) and walk left while
the byte is in the set together with the zero byte.  Walking past the front of the buffer
(which the source would do as an out of bounds read, already at offset -1
for the empty value) is modelled as `none`.  The argument is the current
offset plus one, so `0` means the scan fell off the front. -/
def rscanGo (v chars : List Nat) : Nat → Option Nat
  | 0 => none
  | n + 1 =>
    if strchrFound chars (v.getD n 0) then rscanGo v chars n else some n

/-- Right boundary offset of strip, or `none` on buffer under run. -/
def rscan (v chars : List Nat) : Option Nat := rscanGo v chars v.length

/-- Model of `cstring_strip` with the character set `chars` (default
`WHITESPACE_CHARS`): trim both ends by the two boundary scans and copy
`end - start + 1` bytes from the left boundary.  `none` models the
undefined behaviour reached when a scan leaves the buffer, which happens
exactly when every byte of the value lies in the set together with the zero byte. -/
def cstring_strip (v chars : List Nat) : Option (List Nat) :=
  match lscan v chars with
  | none => none
  | some s =>
    match rscan v chars with
    | none => none
    | some e => some ((v.drop s).take (e + 1 - s))

/-- CLAIM C8.  The claim requires strip to be defined and idempotent on
every value, including values consisting entirely of strippable bytes.
On such a value — two spaces here, or the empty value — the left scan
never stops inside the buffer, because `strchr` finds the terminating
zero in the set string, so the source reads past the allocation
(undefined behaviour, `none` in the model) instead of returning the empty
result the claim requires.  The third conjunct shows the scans do stop on
a value that has a byte outside the set, where strip behaves as
described. -/
theorem strip_all_strippable_overruns :
    cstring_strip [32, 32] wsBytes = none ∧
    cstring_strip [] wsBytes = none ∧
    cstring_strip [32, 97, 32] wsBytes = some [97] := by
  refine ⟨by decide, by decide, by decide⟩

end CStringSpec
